import Mathlib

/-!
Verification of the arduino-repl firmware: a shallow embedding of the
command dispatcher, response encoder, software-PWM scheduler and main-loop
buffer handling, together with theorems settling the specification claims.

Machine integers are modelled as `Nat` with explicit `% 2^w` where the code
relies on fixed-width wraparound; the serial output stream and the pin
side effects are modelled as explicit lists of emitted bytes / actions.
-/

namespace ArduinoRepl

/-! ## Configuration constants (src/config.h) -/

def VERSION : Nat := 1
def COMMANDS_COUNT : Nat := 8
def SUCCESS_CODE : Nat := 0xFF
def ERROR_CODE : Nat := 0xFE
def BUFFER_SIZE : Nat := 10
def MAX_SOFT_PWM : Nat := 6
def SOFT_PWM_FREQ : Nat := 50
def TOTAL_RAM : Nat := 2048
def FLASH_SIZE : Nat := 32256
def CPU_FREQ : Nat := 16000000
def HARDWARE_PWM_PINS : List Nat := [3, 5, 6, 9, 10, 11]
def DIGITAL_PINS : Nat := 14
def TOTAL_PINS : Nat := 22

/-- Arduino UNO analog pin base (`A0` from Arduino.h; external to the repo). -/
def A0 : Nat := 14

/-- Modulus of the 32-bit `unsigned long` used for `millis()` arithmetic. -/
def UINT32_MOD : Nat := 4294967296

/-! ## Command opcodes (enum Command, src/commands.h) -/

def CMD_NOP : Nat := 0
def CMD_INFO : Nat := 1
def CMD_DIGITALREAD : Nat := 2
def CMD_DIGITALWRITE : Nat := 3
def CMD_ANALOGREAD : Nat := 4
def CMD_ANALOGWRITE : Nat := 5
def CMD_PINMODE : Nat := 6
def CMD_RESET : Nat := 7

/-! ## Utilities (src/utils.cpp) -/

/-- Function `readPin` from src/utils.cpp: translate a logical pin index to a physical
pin, returning `(pin, errorFlag)`; the C version writes `error = true` and
returns 0 on an out-of-range index. -/
def readPin (pin : Nat) : Nat × Bool :=
  if pin < DIGITAL_PINS then (pin, false)
  else if pin < TOTAL_PINS then (pin - DIGITAL_PINS + A0, false)
  else (0, true)

/-- Function `isHardwarePWMPin` from src/utils.cpp: linear scan of the hardware-PWM
pin list. -/
def isHardwarePWMPin (pin : Nat) : Bool :=
  HARDWARE_PWM_PINS.any (fun p => p == pin)

/-! ## Software PWM scheduler state (src/soft_pwm.h, src/soft_pwm.cpp) -/

/-- The `struct SoftPWM` from src/soft_pwm.h. -/
structure SoftPWM where
  pin : Nat
  dutyCycle : Nat
  lastToggle : Nat
  state : Bool
  enabled : Bool
deriving Repr, DecidableEq

/-- Zero-initialised channel (global array cells start zeroed on AVR). -/
def defaultChannel : SoftPWM := ⟨0, 0, 0, false, false⟩

/-- The scheduler's global state: the fixed `SoftPWM softPWM[MAX_SOFT_PWM]`
array (as a list of that length) plus `byte softPWMCount`. -/
structure PWMState where
  softPWM : List SoftPWM
  softPWMCount : Nat
deriving Repr, DecidableEq

/-- State after `setup()`: zeroed table, `softPWMCount = 0`. -/
def initPWMState : PWMState :=
  ⟨List.replicate MAX_SOFT_PWM defaultChannel, 0⟩

/-- Pin-level side effects performed through the hardware abstraction layer.
`digitalWrite` carries the raw value (LOW = 0, HIGH = 1). -/
inductive PinAction where
  | digitalWrite (pin : Nat) (value : Nat)
  | analogWrite (pin : Nat) (duty : Nat)
  | pinMode (pin : Nat) (mode : Nat)
deriving Repr, DecidableEq

/-- The slot-search loop of `setPWM` (src/soft_pwm.cpp lines 18-23): scan
indices `0 ≤ i < count`, stopping at the first slot whose pin matches or
which is disabled; if no slot breaks the scan the result is `count`. -/
def findSlotAux (pin : Nat) : List SoftPWM → Nat → Nat
  | _, 0 => 0
  | [], n => n
  | c :: rest, n + 1 =>
    if c.pin == pin || !c.enabled then 0 else findSlotAux pin rest n + 1

/-- Function `setPWM` from src/soft_pwm.cpp: returns
`(success, new state, pin actions emitted)`. `now` stands for `millis()`. -/
def setPWM (s : PWMState) (now pin dutyCycle : Nat) : Bool × PWMState × List PinAction :=
  if isHardwarePWMPin pin then
    (true, s, [PinAction.analogWrite pin dutyCycle])
  else
    let index := findSlotAux pin s.softPWM s.softPWMCount
    if MAX_SOFT_PWM ≤ index then
      (false, s, [PinAction.digitalWrite pin 0])
    else if dutyCycle == 0 then
      if index < s.softPWMCount then
        let disabled := { s.softPWM.getD index defaultChannel with enabled := false }
        (true,
         { s with softPWM := s.softPWM.set index disabled },
         [PinAction.digitalWrite pin 0])
      else
        (true, s, [PinAction.digitalWrite pin 0])
    else
      let newCount :=
        if index == s.softPWMCount then s.softPWMCount + 1 else s.softPWMCount
      (true,
       ⟨s.softPWM.set index ⟨pin, dutyCycle, now, false, true⟩, newCount⟩,
       [PinAction.digitalWrite pin 0])

/-- The scan loop of `resetPWM` (src/soft_pwm.cpp lines 43-51): disable the
first slot among the first `count` whose pin matches, then break. -/
def resetPWMAux (pin : Nat) : List SoftPWM → Nat → List SoftPWM
  | tbl, 0 => tbl
  | [], _ => []
  | c :: rest, n + 1 =>
    if c.pin == pin then { c with enabled := false } :: rest
    else c :: resetPWMAux pin rest n

/-- Function `resetPWM` from src/soft_pwm.cpp. -/
def resetPWM (s : PWMState) (pin : Nat) : PWMState :=
  { s with softPWM := resetPWMAux pin s.softPWM s.softPWMCount }

/-- PWM period in milliseconds: `1000 / SOFT_PWM_FREQ` (integer division). -/
def period : Nat := 1000 / SOFT_PWM_FREQ

/-- 32-bit wraparound `now - lastToggle` as computed on `unsigned long`. -/
def elapsedSince (now lastToggle : Nat) : Nat :=
  (now % UINT32_MOD + UINT32_MOD - lastToggle % UINT32_MOD) % UINT32_MOD

/-- Body of the `updateSoftPWM` loop for one channel
(src/soft_pwm.cpp lines 59-77): returns the updated channel and the pin
actions it performs. The commented-out `lastToggle = now` on the on→off
transition is reproduced: `lastToggle` is only reset on off→on. -/
def updateChannel (now : Nat) (c : SoftPWM) : SoftPWM × List PinAction :=
  if !c.enabled then (c, [])
  else
    let onTime := period * c.dutyCycle / 255
    let elapsed := elapsedSince now c.lastToggle
    if c.state && onTime ≤ elapsed then
      ({ c with state := false }, [PinAction.digitalWrite c.pin 0])
    else if !c.state && period ≤ elapsed then
      ({ c with state := true, lastToggle := now }, [PinAction.digitalWrite c.pin 1])
    else
      (c, [])

/-- The `updateSoftPWM` loop over indices `0 ≤ i < count`. -/
def updateAux (now : Nat) : List SoftPWM → Nat → List SoftPWM × List PinAction
  | tbl, 0 => (tbl, [])
  | [], _ => ([], [])
  | c :: rest, n + 1 =>
    let p := updateChannel now c
    let q := updateAux now rest n
    (p.1 :: q.1, p.2 ++ q.2)

/-- Function `updateSoftPWM` from src/soft_pwm.cpp; `now` stands for `millis()`. -/
def updateSoftPWM (s : PWMState) (now : Nat) : PWMState × List PinAction :=
  let r := updateAux now s.softPWM s.softPWMCount
  ({ s with softPWM := r.1 }, r.2)

/-! ## Command dispatcher (src/commands.cpp) -/

/-- The `struct CommandResult` from src/commands.h; `outputValue` is `uint16_t`,
kept as a `Nat` below 2^16 by the operations that write it. -/
structure CommandResult where
  hasError : Bool
  hasOutput : Bool
  isTwoByteOutput : Bool
  outputValue : Nat
deriving Repr, DecidableEq

/-- The fresh `result` value {false, false, false, 0} set at the start of each dispatch. -/
def emptyResult : CommandResult := ⟨false, false, false, 0⟩

/-- Function `getRequiredArgs` from src/commands.cpp: the switch over opcodes. -/
def getRequiredArgs (command : Nat) : Nat :=
  if command = CMD_NOP ∨ command = CMD_RESET ∨ command = CMD_INFO then 0
  else if command = CMD_PINMODE ∨ command = CMD_DIGITALWRITE ∨ command = CMD_ANALOGWRITE then 2
  else if command = CMD_DIGITALREAD ∨ command = CMD_ANALOGREAD then 1
  else 0

/-- Function `hasCompleteCommand` from src/commands.cpp: the buffer is the physical
array contents `arr` with logical length `len` (`bufferIndex`). -/
def hasCompleteCommand (arr : List Nat) (len : Nat) : Bool :=
  decide (0 < len) && decide (getRequiredArgs (arr.getD 0 0) < len)

/-- Environment supplied by the hardware abstraction layer: values returned
by `digitalRead`/`analogRead` and by `getFreeRam`. -/
structure Env where
  digitalReadVal : Nat → Nat
  analogReadVal : Nat → Nat
  freeRam : Nat

/-- One `Serial.write` of one byte: `uint8_t` truncation of the argument. -/
def serialWrite (out : List Nat) (b : Nat) : List Nat :=
  out ++ [b % 256]

/-- Function `sendUInt16` from src/commands.cpp (little-endian). -/
def sendUInt16 (v : Nat) : List Nat :=
  [v % 256, v / 256 % 256]

/-- Function `sendUInt32` from src/commands.cpp (little-endian). -/
def sendUInt32 (v : Nat) : List Nat :=
  [v % 256, v / 256 % 256, v / 65536 % 256, v / 16777216 % 256]

/-- Bytes of the `INFO` string including the terminating NUL, as written by
`Serial.write(INFO, sizeof(INFO))`. -/
def infoStringBytes : List Nat :=
  (("Arduino REPL v1.0").toUTF8.toList.map (fun b => b.toNat)) ++ [0]

/-- Function `sendInfo` from src/commands.cpp: the serial bytes of the info payload. -/
def sendInfoBytes (env : Env) (now : Nat) : List Nat :=
  sendUInt16 0xB416 ++ sendUInt16 VERSION ++ sendUInt32 (now % UINT32_MOD) ++
  sendUInt16 env.freeRam ++ sendUInt16 TOTAL_RAM ++ sendUInt32 FLASH_SIZE ++
  sendUInt32 CPU_FREQ ++
  [BUFFER_SIZE, DIGITAL_PINS, TOTAL_PINS, MAX_SOFT_PWM, SOFT_PWM_FREQ,
   COMMANDS_COUNT, SUCCESS_CODE, ERROR_CODE, HARDWARE_PWM_PINS.length] ++
  HARDWARE_PWM_PINS ++ [infoStringBytes.length] ++ infoStringBytes

/-- Function `sendResponse` from src/commands.cpp: serialize a `CommandResult` as the
list of serial bytes written. -/
def sendResponse (r : CommandResult) : List Nat :=
  if r.hasError then
    serialWrite [] ERROR_CODE
  else
    let out : List Nat := []
    let out :=
      if r.hasOutput then
        let out := serialWrite out (r.outputValue % 256)
        if r.isTwoByteOutput then serialWrite out (r.outputValue / 256 % 256) else out
      else out
    serialWrite out SUCCESS_CODE

/-- Outcome of one `executeBufferedCommand` call: the `result` global, the
new scheduler state, the pin actions performed, the serial bytes written
during execution (info payload / the reset command's own response), and
whether the `jmp 0` restart was taken. -/
structure ExecResult where
  result : CommandResult
  pwm : PWMState
  actions : List PinAction
  serialOut : List Nat
  didReset : Bool
deriving Repr, DecidableEq

/-- The `switch (command)` of `executeBufferedCommand`
(src/commands.cpp lines 55-89), with the translated pin already in hand. -/
def execSwitch (env : Env) (now : Nat) (arr : List Nat) (s : PWMState)
    (command pin : Nat) : ExecResult :=
  if command = CMD_NOP then
    ⟨emptyResult, s, [], [], false⟩
  else if command = CMD_INFO then
    ⟨{ emptyResult with hasOutput := true }, s, [], sendInfoBytes env now, false⟩
  else if command = CMD_DIGITALREAD then
    let r := { emptyResult with hasOutput := true, outputValue := env.digitalReadVal pin % 65536 }
    ⟨r, s, [], [], false⟩
  else if command = CMD_DIGITALWRITE then
    ⟨emptyResult, resetPWM s pin,
     [PinAction.digitalWrite pin (arr.getD 2 0)], [], false⟩
  else if command = CMD_ANALOGREAD then
    let r := { emptyResult with hasOutput := true, isTwoByteOutput := true, outputValue := env.analogReadVal pin % 65536 }
    ⟨r, s, [], [], false⟩
  else if command = CMD_ANALOGWRITE then
    let r := setPWM s now pin (arr.getD 2 0)
    ⟨{ emptyResult with hasError := !r.1 }, r.2.1, r.2.2, [], false⟩
  else if command = CMD_RESET then
    ⟨emptyResult, s, [], sendResponse emptyResult, true⟩
  else if command = CMD_PINMODE then
    ⟨emptyResult, s, [PinAction.pinMode pin (arr.getD 2 0)], [], false⟩
  else
    ⟨{ emptyResult with hasError := true }, s, [], [], false⟩

/-- Function `executeBufferedCommand` from src/commands.cpp: pin translation gate for
pin-addressed opcodes, then the opcode switch. -/
def executeBufferedCommand (env : Env) (now : Nat) (arr : List Nat)
    (s : PWMState) : ExecResult :=
  let command := arr.getD 0 0
  if command ≠ CMD_NOP ∧ command ≠ CMD_RESET ∧ command ≠ CMD_INFO then
    let pr := readPin (arr.getD 1 0)
    if pr.2 then
      ⟨{ emptyResult with hasError := true }, s, [], [], false⟩
    else
      execSwitch env now arr s command pr.1
  else
    execSwitch env now arr s command 0

/-! ## Main loop buffer compaction (src/main.cpp) -/

/-- The compaction loop of `loop()` (src/main.cpp lines 30-32):
`for (i = ...; i < len; i++) arr[i-L] = arr[i]`, here iterating the remaining
step count `n`, current index `i`, shift distance `L`. -/
def shiftLoop (L : Nat) : List Nat → Nat → Nat → List Nat
  | arr, _, 0 => arr
  | arr, i, n + 1 => shiftLoop L (arr.set (i - L) (arr.getD i 0)) (i + 1) n

/-- The post-dispatch buffer update of `loop()` (src/main.cpp lines 27-33):
shift the trailing bytes down by the consumed command's length and decrement
the logical length. Returns `(new array contents, new bufferIndex)`. -/
def compactBuffer (arr : List Nat) (len : Nat) : List Nat × Nat :=
  let commandLength := 1 + getRequiredArgs (arr.getD 0 0)
  (shiftLoop commandLength arr commandLength (len - commandLength),
   len - commandLength)

/-! ## Reachable scheduler states -/

/-- States of the software-PWM table reachable from `setup()`'s initial
state by the three scheduler operations. -/
inductive PWMReachable : PWMState → Prop where
  | init : PWMReachable initPWMState
  | step_set : ∀ s now pin duty, PWMReachable s →
      PWMReachable (setPWM s now pin duty).2.1
  | step_reset : ∀ s pin, PWMReachable s → PWMReachable (resetPWM s pin)
  | step_update : ∀ s now, PWMReachable s → PWMReachable (updateSoftPWM s now).1

/-- A sample hardware environment for concrete executions. -/
def sampleEnv : Env := ⟨fun _ => 0, fun _ => 0, 0⟩

/-! ## Helper lemmas -/

theorem getD_set_ne {α : Type} (l : List α) (i j : Nat) (v d : α) (h : i ≠ j) :
    (l.set i v).getD j d = l.getD j d := by
  simp [List.getD_eq_getElem?_getD, List.getElem?_set_ne h]

theorem getD_set_self {α : Type} (l : List α) (i : Nat) (v d : α)
    (h : i < l.length) : (l.set i v).getD i d = v := by
  simp [List.getD_eq_getElem?_getD, List.getElem?_set_self',
    List.getElem?_eq_getElem h]

theorem elapsedSince_eq (now lastToggle : Nat) (h1 : lastToggle ≤ now)
    (h2 : now < UINT32_MOD) : elapsedSince now lastToggle = now - lastToggle := by
  have h3 : lastToggle < UINT32_MOD := lt_of_le_of_lt h1 h2
  unfold elapsedSince
  rw [Nat.mod_eq_of_lt h2, Nat.mod_eq_of_lt h3]
  have h4 : now + UINT32_MOD - lastToggle = (now - lastToggle) + UINT32_MOD := by
    omega
  rw [h4, Nat.add_mod_right, Nat.mod_eq_of_lt (by omega)]

/-! ## C7: the required-operand count table -/

/-- C7: `getRequiredArgs` returns 0 for opcodes 0x0, 0x1, 0x7; 1 for 0x2 and
0x4; 2 for 0x3, 0x5, 0x6; and 0 for any other byte value. -/
theorem getRequiredArgs_table (b : Nat) :
    getRequiredArgs b =
      if b = 0 ∨ b = 1 ∨ b = 7 then 0
      else if b = 2 ∨ b = 4 then 1
      else if b = 3 ∨ b = 5 ∨ b = 6 then 2
      else 0 := by
  unfold getRequiredArgs CMD_NOP CMD_INFO CMD_DIGITALREAD CMD_DIGITALWRITE
    CMD_ANALOGREAD CMD_ANALOGWRITE CMD_PINMODE CMD_RESET
  split_ifs <;> omega

/-! ## C6: command completeness -/

/-- C6: a command is recognized as complete iff the buffered byte count is
strictly greater than the required-operand count of the buffered opcode
(the redundant `bufferIndex > 0` conjunct of the source follows from the
count being strictly greater than a nonnegative operand count). -/
theorem hasCompleteCommand_iff (arr : List Nat) (len : Nat) :
    hasCompleteCommand arr len = true ↔ getRequiredArgs (arr.getD 0 0) < len := by
  unfold hasCompleteCommand
  simp only [Bool.and_eq_true, decide_eq_true_eq]
  constructor
  · exact fun h => h.2
  · exact fun h => ⟨by omega, h⟩

/-! ## C9: pin translation -/

/-- C9: `readPin` returns `p` itself for `p < digitalPinCount`, returns
`A0 + (p - digitalPinCount)` for `digitalPinCount ≤ p < totalPinCount`, and
signals an error for `p ≥ totalPinCount`. -/
theorem readPin_spec (p : Nat) :
    (p < DIGITAL_PINS → readPin p = (p, false)) ∧
    (DIGITAL_PINS ≤ p → p < TOTAL_PINS → readPin p = (A0 + (p - DIGITAL_PINS), false)) ∧
    (TOTAL_PINS ≤ p → (readPin p).2 = true) := by
  unfold readPin DIGITAL_PINS TOTAL_PINS
  refine ⟨fun h1 => ?_, fun h1 h2 => ?_, fun h1 => ?_⟩
  · rw [if_pos h1]
  · rw [if_neg (by omega), if_pos h2]
    simp [Nat.add_comm]
  · rw [if_neg (by omega), if_neg (by omega)]

/-- Witness for C9 at pins 5, 20 and 22. -/
theorem readPin_spec_witness :
    readPin 5 = (5, false) ∧
    readPin 20 = (A0 + (20 - DIGITAL_PINS), false) ∧
    (readPin 22).2 = true :=
  ⟨(readPin_spec 5).1 (by decide),
   (readPin_spec 20).2.1 (by decide) (by decide),
   (readPin_spec 22).2.2 (by decide)⟩

/-! ## C4: response encoding -/

/-- C4: on error the response is exactly `[ERROR_CODE]`; otherwise it is the
low byte of `outputValue` when `hasOutput`, additionally the high byte when
`isTwoByteOutput`, always terminated by `SUCCESS_CODE`; in particular with
no output and no error it is exactly `[SUCCESS_CODE]`. -/
theorem sendResponse_spec (r : CommandResult) :
    (r.hasError = true → sendResponse r = [ERROR_CODE]) ∧
    (r.hasError = false →
      sendResponse r =
        (if r.hasOutput then
           [r.outputValue % 256] ++
             (if r.isTwoByteOutput then [r.outputValue / 256 % 256] else [])
         else []) ++ [SUCCESS_CODE]) ∧
    (r.hasError = false → r.hasOutput = false → sendResponse r = [SUCCESS_CODE]) := by
  rcases r with ⟨he, ho, ht, v⟩
  refine ⟨fun h1 => ?_, fun h1 => ?_, fun h1 h2 => ?_⟩ <;>
    simp only at h1 ⊢ <;> subst h1 <;>
    cases ho <;> cases ht <;>
    simp [sendResponse, serialWrite, ERROR_CODE, SUCCESS_CODE, Nat.mod_mod_of_dvd]
  · simp at *
  · simp at *

/-- Witness for C4 at an error result and at an empty success result. -/
theorem sendResponse_spec_witness :
    sendResponse ⟨true, false, false, 0⟩ = [ERROR_CODE] ∧
    sendResponse ⟨false, false, false, 0⟩ = [SUCCESS_CODE] :=
  ⟨(sendResponse_spec ⟨true, false, false, 0⟩).1 rfl,
   (sendResponse_spec ⟨false, false, false, 0⟩).2.2 rfl rfl⟩

/-! ## C5: out-of-range pin gate -/

/-- C5: for every pin-addressed opcode with an out-of-range pin-index
operand, dispatch produces the error result with no hardware action, no
serial output and an unchanged channel table, and the emitted response is
exactly `[ERROR_CODE]`. -/
theorem outOfRangePin_spec (env : Env) (now : Nat) (arr : List Nat)
    (s : PWMState)
    (hc : arr.getD 0 0 = CMD_DIGITALREAD ∨ arr.getD 0 0 = CMD_DIGITALWRITE ∨
          arr.getD 0 0 = CMD_ANALOGREAD ∨ arr.getD 0 0 = CMD_ANALOGWRITE ∨
          arr.getD 0 0 = CMD_PINMODE)
    (hp : TOTAL_PINS ≤ arr.getD 1 0) :
    executeBufferedCommand env now arr s =
      ⟨{ emptyResult with hasError := true }, s, [], [], false⟩ ∧
    sendResponse { emptyResult with hasError := true } = [ERROR_CODE] := by
  have hr : (readPin (arr.getD 1 0)).2 = true := (readPin_spec _).2.2 hp
  constructor
  · unfold executeBufferedCommand
    simp only [List.getD_eq_getElem?_getD] at hr
    rcases hc with h | h | h | h | h <;>
      rw [h] <;>
      simp [CMD_NOP, CMD_RESET, CMD_INFO, CMD_DIGITALREAD, CMD_DIGITALWRITE,
        CMD_ANALOGREAD, CMD_ANALOGWRITE, CMD_PINMODE, hr]
  · exact (sendResponse_spec _).1 rfl

/-- Witness for C5: opcode 0x2 (digital-read) with pin index 22. -/
theorem outOfRangePin_spec_witness :
    executeBufferedCommand sampleEnv 0 [2, 22] initPWMState =
      ⟨{ emptyResult with hasError := true }, initPWMState, [], [], false⟩ ∧
    sendResponse { emptyResult with hasError := true } = [ERROR_CODE] :=
  outOfRangePin_spec sampleEnv 0 [2, 22] initPWMState (by decide) (by decide)

/-! ## C1: updateSoftPWM per-channel behavior -/

/-- The `updateSoftPWM` loop updates the channel at each index `i < count`
by the loop body `updateChannel`. -/
theorem updateAux_getD (now : Nat) :
    ∀ (tbl : List SoftPWM) (n i : Nat) (d : SoftPWM), i < n → i < tbl.length →
      (updateAux now tbl n).1.getD i d = (updateChannel now (tbl.getD i d)).1
  | [], _, _, _, _, hil => by simp at hil
  | c :: rest, 0, i, d, hin, _ => by omega
  | c :: rest, n + 1, 0, d, _, _ => by
    simp [updateAux]
  | c :: rest, n + 1, i + 1, d, hin, hil => by
    have ih := updateAux_getD now rest n i d (by omega) (by simpa using hil)
    simp only [updateAux, List.getD_cons_succ]
    exact ih

/-- C1: for every enabled channel (at index `i < softPWMCount`), one call to
`updateSoftPWM` at time `now` applies the loop body to it; with
`onTime = period * dutyCycle / 255` and `elapsed = now - lastToggle`:
state on and `elapsed ≥ onTime` sets the pin low and the state off, leaving
`lastToggle` unchanged; otherwise state off and `elapsed ≥ period` sets the
pin high, the state on, and `lastToggle := now`; in every other case the
channel is unchanged and no pin action occurs. -/
theorem updateSoftPWM_channel_spec (s : PWMState) (now i : Nat) (c : SoftPWM)
    (hc : s.softPWM.getD i defaultChannel = c)
    (hi : i < s.softPWMCount) (hil : i < s.softPWM.length)
    (he : c.enabled = true) (hlt : c.lastToggle ≤ now)
    (hnow : now < UINT32_MOD) :
    (updateSoftPWM s now).1.softPWM.getD i defaultChannel = (updateChannel now c).1 ∧
    (c.state = true → period * c.dutyCycle / 255 ≤ now - c.lastToggle →
      updateChannel now c =
        ({ c with state := false }, [PinAction.digitalWrite c.pin 0])) ∧
    (c.state = false → period ≤ now - c.lastToggle →
      updateChannel now c =
        ({ c with state := true, lastToggle := now },
         [PinAction.digitalWrite c.pin 1])) ∧
    ((c.state = true → now - c.lastToggle < period * c.dutyCycle / 255) →
     (c.state = false → now - c.lastToggle < period) →
      updateChannel now c = (c, [])) := by
  have helapsed : elapsedSince now c.lastToggle = now - c.lastToggle :=
    elapsedSince_eq now c.lastToggle hlt hnow
  refine ⟨?_, fun hs hon => ?_, fun hs hoff => ?_, fun h1 h2 => ?_⟩
  · unfold updateSoftPWM
    rw [← hc]
    exact updateAux_getD now s.softPWM s.softPWMCount i defaultChannel hi hil
  · unfold updateChannel
    rw [he, hs, helapsed]
    simp [hon]
  · unfold updateChannel
    rw [he, hs, helapsed]
    simp [hoff]
  · unfold updateChannel
    rw [he, helapsed]
    cases hs : c.state
    · have h3 := h2 hs
      simp [hs, Nat.not_le.mpr h3]
    · have h3 := h1 hs
      simp [hs, Nat.not_le.mpr h3]

/-- Witness for C1: a channel with duty 128 that is on at `now = 15`
(`onTime = 20 * 128 / 255 = 10 ≤ 15`) turns off without touching
`lastToggle`. -/
theorem updateSoftPWM_channel_spec_witness :
    (updateSoftPWM ⟨⟨13, 128, 0, true, true⟩ :: List.replicate 5 defaultChannel, 1⟩
        15).1.softPWM.getD 0 defaultChannel =
      (updateChannel 15 ⟨13, 128, 0, true, true⟩).1 ∧
    updateChannel 15 ⟨13, 128, 0, true, true⟩ =
      (⟨13, 128, 0, false, true⟩, [PinAction.digitalWrite 13 0]) := by
  have h := updateSoftPWM_channel_spec
    ⟨⟨13, 128, 0, true, true⟩ :: List.replicate 5 defaultChannel, 1⟩
    15 0 ⟨13, 128, 0, true, true⟩ (by decide) (by decide) (by decide)
    (by decide) (by decide) (by decide)
  exact ⟨h.1, h.2.1 rfl (by decide)⟩

/-! ## C3: table-full failure of setPWM -/

/-- If no slot among the first `n` scanned matches the pin and none is
disabled, the slot-search loop runs to `n`. -/
theorem findSlotAux_eq_count (pin : Nat) :
    ∀ (tbl : List SoftPWM) (n : Nat),
      (∀ c ∈ tbl.take n, c.pin ≠ pin ∧ c.enabled = true) →
      findSlotAux pin tbl n = n
  | tbl, 0, _ => by cases tbl <;> rfl
  | [], n + 1, _ => rfl
  | c :: rest, n + 1, hall => by
    have hc := hall c (by simp)
    have ih := findSlotAux_eq_count pin rest n (fun x hx => hall x (by
      rw [List.take_succ_cons]; exact List.mem_cons_of_mem c hx))
    show (if c.pin == pin || !c.enabled then 0 else findSlotAux pin rest n + 1) = n + 1
    rw [if_neg, ih]
    simp [hc.1, hc.2]

/-- C3: for a non-hardware-PWM pin and nonzero duty cycle, when the table
already holds `MAX_SOFT_PWM` channels none of which has this pin and none of
which is disabled, `setPWM` returns failure and leaves the table unchanged
(the only pin action is the unconditional forced-low write that the
scheduler performs before the slot search). -/
theorem setPWM_full_table (s : PWMState) (now p duty : Nat)
    (hhw : isHardwarePWMPin p = false) (_hd : duty ≠ 0)
    (hcount : s.softPWMCount = MAX_SOFT_PWM)
    (hall : ∀ c ∈ s.softPWM.take s.softPWMCount, c.pin ≠ p ∧ c.enabled = true) :
    setPWM s now p duty = (false, s, [PinAction.digitalWrite p 0]) := by
  have hidx : findSlotAux p s.softPWM s.softPWMCount = s.softPWMCount :=
    findSlotAux_eq_count p s.softPWM s.softPWMCount hall
  rw [hcount] at hidx
  unfold setPWM
  rw [hhw]
  simp only [Bool.false_eq_true, if_false]
  rw [hcount, hidx, if_pos (le_refl MAX_SOFT_PWM)]

/-- Concrete table-full state: six successful `setPWM` calls on the distinct
non-hardware pins 0, 1, 2, 4, 7, 8 starting from the initial state. -/
def fullState : PWMState :=
  [0, 1, 2, 4, 7, 8].foldl (fun s p => (setPWM s 0 p 100).2.1) initPWMState

/-- Witness for C3: with all `MAX_SOFT_PWM` slots taken by other enabled
pins, the (MAX_SOFT_PWM+1)-th distinct-pin call — here on pin 12 — fails. -/
theorem setPWM_full_table_witness :
    setPWM fullState 0 12 100 = (false, fullState, [PinAction.digitalWrite 12 0]) :=
  setPWM_full_table fullState 0 12 100 (by decide) (by decide) (by decide)
    (by decide)

/-! ## C8: main-loop buffer compaction -/

/-- Effect of the compaction loop on the array: positions `k ≤ p < k + n`
receive the byte from `p + L`; all other positions are untouched, and reads
always see original values because each read happens above every position
written so far. -/
theorem shiftLoop_getD (L : Nat) :
    ∀ (n k : Nat) (arr : List Nat) (p : Nat), k + n ≤ arr.length →
      (shiftLoop L arr (L + k) n).getD p 0 =
        if k ≤ p ∧ p < k + n then arr.getD (p + L) 0 else arr.getD p 0
  | 0, k, arr, p, _ => by
    simp only [shiftLoop]
    rw [if_neg (by omega)]
  | n + 1, k, arr, p, hlen => by
    show (shiftLoop L ((arr.set (L + k - L) (arr.getD (L + k) 0))) (L + k + 1) n).getD p 0 = _
    have hkk : L + k - L = k := by omega
    have hsucc : L + k + 1 = L + (k + 1) := by omega
    rw [hkk, hsucc]
    have ih := shiftLoop_getD L n (k + 1) (arr.set k (arr.getD (L + k) 0)) p
      (by rw [List.length_set]; omega)
    rw [ih]
    by_cases hp1 : p = k
    · subst hp1
      rw [if_neg (by omega), if_pos (by omega)]
      rw [getD_set_self arr p _ 0 (by omega)]
      rw [Nat.add_comm p L]
    · by_cases hp2 : k + 1 ≤ p ∧ p < k + 1 + n
      · rw [if_pos hp2, if_pos (by omega)]
        exact getD_set_ne arr k (p + L) _ 0 (by omega)
      · rw [if_neg hp2, if_neg (by omega)]
        exact getD_set_ne arr k p _ 0 (by omega)

/-- C8: after dispatching a complete command of total length
`L = 1 + requiredArgs` with `len` bytes buffered, the main loop sets the
logical length to `len - L` and moves the `len - L` trailing bytes to
offset 0 preserving their order. -/
theorem loop_compaction (arr : List Nat) (len : Nat)
    (hcomplete : hasCompleteCommand arr len = true)
    (hlen : len ≤ arr.length) :
    (compactBuffer arr len).2 = len - (1 + getRequiredArgs (arr.getD 0 0)) ∧
    ∀ j, j < len - (1 + getRequiredArgs (arr.getD 0 0)) →
      (compactBuffer arr len).1.getD j 0 =
        arr.getD (j + (1 + getRequiredArgs (arr.getD 0 0))) 0 := by
  have hargs : getRequiredArgs (arr.getD 0 0) < len :=
    (hasCompleteCommand_iff arr len).mp hcomplete
  refine ⟨rfl, fun j hj => ?_⟩
  show (shiftLoop (1 + getRequiredArgs (arr.getD 0 0)) arr
      (1 + getRequiredArgs (arr.getD 0 0))
      (len - (1 + getRequiredArgs (arr.getD 0 0)))).getD j 0 = _
  have h := shiftLoop_getD (1 + getRequiredArgs (arr.getD 0 0))
    (len - (1 + getRequiredArgs (arr.getD 0 0))) 0 arr j (by omega)
  simp only [Nat.add_zero, Nat.zero_add] at h
  rw [h, if_pos (by omega)]

/-- Witness for C8: dispatching the 3-byte command `[3, 1, 0]` with 5 bytes
buffered leaves logical length 2, the former trailing bytes at offsets
0 and 1. -/
theorem loop_compaction_witness :
    (compactBuffer [3, 1, 0, 2, 5] 5).2 = 2 ∧
    (compactBuffer [3, 1, 0, 2, 5] 5).1.getD 0 0 = [3, 1, 0, 2, 5].getD 3 0 ∧
    (compactBuffer [3, 1, 0, 2, 5] 5).1.getD 1 0 = [3, 1, 0, 2, 5].getD 4 0 := by
  have h := loop_compaction [3, 1, 0, 2, 5] 5 (by decide) (by decide)
  exact ⟨h.1, h.2 0 (by decide), h.2 1 (by decide)⟩

/-! ## C10: bounded table invariant -/

/-- The slot-search loop never runs past the channel count. -/
theorem findSlotAux_le (pin : Nat) :
    ∀ (tbl : List SoftPWM) (n : Nat), findSlotAux pin tbl n ≤ n
  | tbl, 0 => by cases tbl <;> simp [findSlotAux]
  | [], n + 1 => le_refl _
  | c :: rest, n + 1 => by
    show (if c.pin == pin || !c.enabled then 0 else findSlotAux pin rest n + 1) ≤ n + 1
    split
    · omega
    · have := findSlotAux_le pin rest n
      omega

theorem resetPWMAux_length (pin : Nat) :
    ∀ (tbl : List SoftPWM) (n : Nat), (resetPWMAux pin tbl n).length = tbl.length
  | tbl, 0 => by cases tbl <;> rfl
  | [], n + 1 => rfl
  | c :: rest, n + 1 => by
    show (if c.pin == pin then { c with enabled := false } :: rest
          else c :: resetPWMAux pin rest n).length = (c :: rest).length
    split
    · simp
    · simp [resetPWMAux_length pin rest n]

theorem updateAux_length (now : Nat) :
    ∀ (tbl : List SoftPWM) (n : Nat), (updateAux now tbl n).1.length = tbl.length
  | tbl, 0 => by cases tbl <;> rfl
  | [], n + 1 => rfl
  | c :: rest, n + 1 => by
    show ((updateChannel now c).1 :: (updateAux now rest n).1).length = (c :: rest).length
    simp [updateAux_length now rest n]

theorem setPWM_softPWM_length (s : PWMState) (now pin duty : Nat) :
    (setPWM s now pin duty).2.1.softPWM.length = s.softPWM.length := by
  simp only [setPWM]
  split
  · rfl
  · split
    · rfl
    · split
      · split
        · simp [List.length_set]
        · rfl
      · simp [List.length_set]

theorem setPWM_count_le (s : PWMState) (now pin duty : Nat)
    (h : s.softPWMCount ≤ MAX_SOFT_PWM) :
    (setPWM s now pin duty).2.1.softPWMCount ≤ MAX_SOFT_PWM := by
  simp only [setPWM]
  split
  · exact h
  · split
    · exact h
    · next hng =>
      split
      · split
        · exact h
        · exact h
      · dsimp only
        split
        · next heq =>
          have : findSlotAux pin s.softPWM s.softPWMCount = s.softPWMCount := by
            simpa using heq
          omega
        · exact h

theorem setPWM_frame (s : PWMState) (now pin duty j : Nat)
    (hj : (setPWM s now pin duty).2.1.softPWMCount ≤ j) :
    (setPWM s now pin duty).2.1.softPWM.getD j defaultChannel =
      s.softPWM.getD j defaultChannel := by
  have hle := findSlotAux_le pin s.softPWM s.softPWMCount
  simp only [setPWM] at hj ⊢
  split at hj
  · next h1 => rw [if_pos h1]
  · next h1 =>
    rw [if_neg h1]
    split at hj
    · next h2 => rw [if_pos h2]
    · next h2 =>
      rw [if_neg h2]
      split at hj
      · next h3 =>
        rw [if_pos h3]
        split at hj
        · next h4 =>
          rw [if_pos h4]
          dsimp only at hj ⊢
          exact getD_set_ne _ _ _ _ _ (by omega)
        · next h4 => rw [if_neg h4]
      · next h3 =>
        rw [if_neg h3]
        dsimp only at hj ⊢
        split at hj
        · next heq =>
          have : findSlotAux pin s.softPWM s.softPWMCount = s.softPWMCount := by
            simpa using heq
          exact getD_set_ne _ _ _ _ _ (by omega)
        · next heq =>
          have : findSlotAux pin s.softPWM s.softPWMCount ≠ s.softPWMCount := by
            simpa using heq
          exact getD_set_ne _ _ _ _ _ (by omega)

theorem resetPWMAux_frame (pin : Nat) :
    ∀ (tbl : List SoftPWM) (n j : Nat) (d : SoftPWM), n ≤ j →
      (resetPWMAux pin tbl n).getD j d = tbl.getD j d
  | tbl, 0, _, _, _ => by cases tbl <;> rfl
  | [], n + 1, _, _, _ => rfl
  | c :: rest, n + 1, j, d, hj => by
    show (if c.pin == pin then { c with enabled := false } :: rest
          else c :: resetPWMAux pin rest n).getD j d = (c :: rest).getD j d
    split
    · cases j with
      | zero => omega
      | succ j' => simp [List.getD_cons_succ]
    · cases j with
      | zero => omega
      | succ j' =>
        simp only [List.getD_cons_succ]
        exact resetPWMAux_frame pin rest n j' d (by omega)

theorem updateAux_frame (now : Nat) :
    ∀ (tbl : List SoftPWM) (n j : Nat) (d : SoftPWM), n ≤ j →
      (updateAux now tbl n).1.getD j d = tbl.getD j d
  | tbl, 0, _, _, _ => by cases tbl <;> rfl
  | [], n + 1, _, _, _ => rfl
  | c :: rest, n + 1, j, d, hj => by
    show ((updateChannel now c).1 :: (updateAux now rest n).1).getD j d =
      (c :: rest).getD j d
    cases j with
    | zero => omega
    | succ j' =>
      simp only [List.getD_cons_succ]
      exact updateAux_frame now rest n j' d (by omega)

/-- C10: in every state reachable from the initial state by `setPWM`,
`resetPWM` and `updateSoftPWM`, the channel count stays within
`0 ≤ softPWMCount ≤ MAX_SOFT_PWM` and the table keeps its fixed capacity;
moreover each operation leaves every slot at an index at or above the
(resulting) channel count untouched — all reads and writes stay strictly
below the count and hence inside the fixed-capacity table. -/
theorem pwm_table_invariant (s : PWMState) (h : PWMReachable s) :
    s.softPWMCount ≤ MAX_SOFT_PWM ∧ s.softPWM.length = MAX_SOFT_PWM ∧
    (∀ now pin duty,
      (setPWM s now pin duty).2.1.softPWMCount ≤ MAX_SOFT_PWM ∧
      ∀ j, (setPWM s now pin duty).2.1.softPWMCount ≤ j →
        (setPWM s now pin duty).2.1.softPWM.getD j defaultChannel =
          s.softPWM.getD j defaultChannel) ∧
    (∀ pin j, s.softPWMCount ≤ j →
      (resetPWM s pin).softPWM.getD j defaultChannel =
        s.softPWM.getD j defaultChannel) ∧
    (∀ now j, s.softPWMCount ≤ j →
      (updateSoftPWM s now).1.softPWM.getD j defaultChannel =
        s.softPWM.getD j defaultChannel) := by
  have hmain : s.softPWMCount ≤ MAX_SOFT_PWM ∧ s.softPWM.length = MAX_SOFT_PWM := by
    induction h with
    | init => exact ⟨by decide, by decide⟩
    | step_set s' now pin duty _ ih =>
      exact ⟨setPWM_count_le s' now pin duty ih.1,
        by rw [setPWM_softPWM_length]; exact ih.2⟩
    | step_reset s' pin _ ih =>
      refine ⟨ih.1, ?_⟩
      show (resetPWMAux pin s'.softPWM s'.softPWMCount).length = MAX_SOFT_PWM
      rw [resetPWMAux_length]
      exact ih.2
    | step_update s' now _ ih =>
      refine ⟨ih.1, ?_⟩
      show (updateAux now s'.softPWM s'.softPWMCount).1.length = MAX_SOFT_PWM
      rw [updateAux_length]
      exact ih.2
  refine ⟨hmain.1, hmain.2,
    fun now pin duty => ⟨setPWM_count_le s now pin duty hmain.1,
      fun j hj => setPWM_frame s now pin duty j hj⟩,
    fun pin j hj => ?_, fun now j hj => ?_⟩
  · exact resetPWMAux_frame pin s.softPWM s.softPWMCount j defaultChannel hj
  · exact updateAux_frame now s.softPWM s.softPWMCount j defaultChannel hj

/-- Witness for C10 at the initial state (and at sample operation inputs for
the quantified frame parts). -/
theorem pwm_table_invariant_witness :
    initPWMState.softPWMCount ≤ MAX_SOFT_PWM ∧
    initPWMState.softPWM.length = MAX_SOFT_PWM ∧
    (setPWM initPWMState 0 2 100).2.1.softPWMCount ≤ MAX_SOFT_PWM ∧
    (resetPWM initPWMState 2).softPWM.getD 3 defaultChannel =
      initPWMState.softPWM.getD 3 defaultChannel ∧
    (updateSoftPWM initPWMState 0).1.softPWM.getD 3 defaultChannel =
      initPWMState.softPWM.getD 3 defaultChannel :=
  ⟨(pwm_table_invariant initPWMState PWMReachable.init).1,
   (pwm_table_invariant initPWMState PWMReachable.init).2.1,
   ((pwm_table_invariant initPWMState PWMReachable.init).2.2.1 0 2 100).1,
   (pwm_table_invariant initPWMState PWMReachable.init).2.2.2.1 2 3 (by decide),
   (pwm_table_invariant initPWMState PWMReachable.init).2.2.2.2 0 3 (by decide)⟩

/-! ## C2: digital-write vs. the software-PWM table -/

/-- The scan of `resetPWM` disables the first matching slot and then breaks, so
when at most one slot among the scanned prefix carries the pin, no enabled
slot with that pin remains afterwards. -/
theorem resetPWMAux_disables (p : Nat) :
    ∀ (tbl : List SoftPWM) (n : Nat),
      ((tbl.take n).filter (fun c => c.pin == p)).length ≤ 1 →
      ∀ c ∈ (resetPWMAux p tbl n).take n, c.pin = p → c.enabled = false
  | tbl, 0, _ => by
    intro c hc
    rw [List.take_zero] at hc
    cases hc
  | [], n + 1, _ => by
    intro c hc
    simp [resetPWMAux] at hc
  | a :: rest, n + 1, hone => by
    intro c hc hpin
    have htake : ((a :: rest.take n).filter (fun c => c.pin == p)).length ≤ 1 := by
      rw [← List.take_succ_cons]
      exact hone
    simp only [List.filter_cons] at htake
    by_cases ha : (a.pin == p) = true
    · rw [show resetPWMAux p (a :: rest) (n + 1) =
          { a with enabled := false } :: rest from by simp [resetPWMAux, ha]] at hc
      rw [List.take_succ_cons] at hc
      rcases List.mem_cons.mp hc with h | h
      · rw [h]
      · exfalso
        rw [if_pos ha, List.length_cons] at htake
        have hnil : (rest.take n).filter (fun c => c.pin == p) = [] :=
          List.length_eq_zero.mp (by omega)
        have hmem : c ∈ (rest.take n).filter (fun c => c.pin == p) :=
          List.mem_filter.mpr ⟨h, by simp [hpin]⟩
        rw [hnil] at hmem
        cases hmem
    · rw [show resetPWMAux p (a :: rest) (n + 1) =
          a :: resetPWMAux p rest n from by simp [resetPWMAux, ha]] at hc
      rw [List.take_succ_cons] at hc
      rcases List.mem_cons.mp hc with h | h
      · exfalso
        rw [h] at hpin
        simp [hpin] at ha
      · refine resetPWMAux_disables p rest n ?_ c h hpin
        rw [if_neg ha] at htake
        exact htake

/-- C2 (amended): dispatching a digital-write on a valid pin updates the
table exactly by `resetPWM` (which disables the first slot whose pin
matches) and only then emits the digital write; consequently, whenever at
most one slot among the first `softPWMCount` carries that pin, no enabled
channel with that pin remains after the dispatch. -/
theorem digitalWrite_dispatch_resets (env : Env) (now : Nat) (arr : List Nat)
    (s : PWMState)
    (hcmd : arr.getD 0 0 = CMD_DIGITALWRITE)
    (hok : (readPin (arr.getD 1 0)).2 = false) :
    (executeBufferedCommand env now arr s).pwm =
      resetPWM s (readPin (arr.getD 1 0)).1 ∧
    (executeBufferedCommand env now arr s).actions =
      [PinAction.digitalWrite (readPin (arr.getD 1 0)).1 (arr.getD 2 0)] ∧
    (((s.softPWM.take s.softPWMCount).filter
        (fun c => c.pin == (readPin (arr.getD 1 0)).1)).length ≤ 1 →
      ∀ c ∈ (executeBufferedCommand env now arr s).pwm.softPWM.take
          (executeBufferedCommand env now arr s).pwm.softPWMCount,
        c.pin = (readPin (arr.getD 1 0)).1 → c.enabled = false) := by
  have hexec : executeBufferedCommand env now arr s =
      ⟨emptyResult, resetPWM s (readPin (arr.getD 1 0)).1,
       [PinAction.digitalWrite (readPin (arr.getD 1 0)).1 (arr.getD 2 0)],
       [], false⟩ := by
    simp only [executeBufferedCommand]
    rw [hcmd]
    rw [if_pos (by decide)]
    rw [hok]
    simp only [Bool.false_eq_true, if_false]
    simp only [execSwitch]
    rw [if_neg (by decide), if_neg (by decide), if_neg (by decide)]
    rw [if_pos trivial]
  refine ⟨by rw [hexec], by rw [hexec], fun hone c hc hpin => ?_⟩
  rw [hexec] at hc
  exact resetPWMAux_disables (readPin (arr.getD 1 0)).1 s.softPWM s.softPWMCount
    hone c hc hpin

/-- State with one software-PWM channel on pin 2, reached by one analog
write. -/
def oneChannelState : PWMState := (setPWM initPWMState 0 2 100).2.1

/-- Witness for C2 (amended): digital-write on pin 2 with a single pin-2
channel in the table. -/
theorem digitalWrite_dispatch_resets_witness :
    (executeBufferedCommand sampleEnv 0 [3, 2, 0] oneChannelState).pwm =
      resetPWM oneChannelState (readPin ([3, 2, 0].getD 1 0)).1 ∧
    (executeBufferedCommand sampleEnv 0 [3, 2, 0] oneChannelState).actions =
      [PinAction.digitalWrite (readPin ([3, 2, 0].getD 1 0)).1 0] := by
  have h := digitalWrite_dispatch_resets sampleEnv 0 [3, 2, 0] oneChannelState
    (by decide) (by decide)
  exact ⟨h.1, h.2.1⟩

/-- Reachable duplicate-pin scenario: analog-write pin 0, analog-write
pin 1, analog-write pin 0 duty 0 (disables slot 0), analog-write pin 1
again (reuses the disabled slot 0, leaving slots 0 and 1 both enabled on
pin 1). -/
def cexState1 : PWMState :=
  (executeBufferedCommand sampleEnv 0 [5, 0, 100] initPWMState).pwm

def cexState2 : PWMState :=
  (executeBufferedCommand sampleEnv 0 [5, 1, 100] cexState1).pwm

def cexState3 : PWMState :=
  (executeBufferedCommand sampleEnv 0 [5, 0, 0] cexState2).pwm

def cexState4 : PWMState :=
  (executeBufferedCommand sampleEnv 0 [5, 1, 100] cexState3).pwm

/-- Counterexample to C2 as stated: in the dispatch-reachable state
`cexState4` (two enabled channels on pin 1), dispatching a digital-write on
pin 1 leaves an enabled software-PWM channel on pin 1 in the table, because
`resetPWM` breaks after disabling the first match. -/
theorem digitalWrite_dispatch_counterexample :
    (executeBufferedCommand sampleEnv 0 [3, 1, 0] cexState4).actions =
      [PinAction.digitalWrite 1 0] ∧
    ¬ (∀ c ∈ (executeBufferedCommand sampleEnv 0 [3, 1, 0] cexState4).pwm.softPWM.take
          (executeBufferedCommand sampleEnv 0 [3, 1, 0] cexState4).pwm.softPWMCount,
        c.pin = 1 → c.enabled = false) := by
  constructor
  · decide
  · decide

end ArduinoRepl
